import Mathlib

/-!
Verification of the bbskit helper library: a shallow embedding of
`escapeHTML`/`createEscaper` (src/helpers/core/truncate.js), `truncate`,
`validateUsername` (src/helpers/validation/validateUsername.js),
`passwordStrength` (src/helpers/validation/passwordStrength.js) and the
`MemoryAdapter` datastore (src/helpers/system/datastore/adapters/memoryAdapter.js),
together with proofs about the properties stated in the design document.

Strings are modelled as Lean `String` (a list of characters); JavaScript
values that may or may not be strings are modelled as `Option String`;
caller-supplied callbacks that may throw are modelled in an explicit
`Except Unit` error channel.
-/

namespace BBSKit

/-! ### Character predicates (ASCII classes used by the regexes in the source) -/

/-- JavaScript `\d`: an ASCII decimal digit. -/
def isDig (c : Char) : Bool := '0' ≤ c && c ≤ '9'

/-- The class `[0-9a-fA-F]` of hexadecimal digits. -/
def isHexDig (c : Char) : Bool :=
  isDig c || ('a' ≤ c && c ≤ 'f') || ('A' ≤ c && c ≤ 'F')

/-- The class `[a-zA-Z]` of ASCII letters. -/
def isLetterAscii (c : Char) : Bool :=
  ('a' ≤ c && c ≤ 'z') || ('A' ≤ c && c ≤ 'Z')

/-- The class `[a-zA-Z0-9]` of ASCII alphanumerics. -/
def isAlnumAscii (c : Char) : Bool := isLetterAscii c || isDig c

/-- JavaScript line terminators, which `.` (without the `s` flag) never matches. -/
def isLineTerm (c : Char) : Bool :=
  c = '\n' || c = '\r' || c = '\u2028' || c = '\u2029'

/-- Boolean membership of a character in a list (JS `Set.has` over characters). -/
def memB (c : Char) : List Char → Bool
  | [] => false
  | x :: t => c = x || memB c t

/-- Boolean membership of a string in a list (`hasExact` over an array or `Set`). -/
def memStr (v : String) : List String → Bool
  | [] => false
  | x :: t => v = x || memStr v t

/-! ### escapeHTML: configuration and the constructed character class

The source builds `new RegExp("[" + regexClass + "]", "g")` where
`regexClass` is each member of the escape set with the metacharacters
`\^$.*+?()[]{}|` backslash-escaped.  A `-` is not escaped, so when it lands
between two other members it forms a character range, exactly as in
JavaScript.  (A reversed range such as `[x--]` raises a `SyntaxError` in
JavaScript; here it is modelled as a never-matching range, which no claim
relies on.)
-/

/-- One item of the constructed character class: a backslash-escaped
metacharacter or a raw character. -/
inductive ClassItem where
  | escd (c : Char)
  | raw (c : Char)
deriving DecidableEq

/-- The character an item denotes. -/
def itemChar : ClassItem → Char
  | .escd c => c
  | .raw c => c

/-- The metacharacters escaped by the source: `[\\^$.*+?()[\]{}|]`. -/
def isRegexMeta (c : Char) : Bool :=
  memB c ['\\', '^', '$', '.', '*', '+', '?', '(', ')', '[', ']', '\x7b', '\x7d', '|']

/-- A raw, unescaped `-`, which separates the endpoints of a range. -/
def isDashItem : ClassItem → Bool
  | .raw c => c = '-'
  | .escd _ => false

/-- Matching a character against the item sequence of a character class:
an unescaped `-` between two items forms a range, every other item matches
its own character, as in a JavaScript character class. -/
def classMatch : List ClassItem → Char → Bool
  | [], _ => false
  | [a], c => c = itemChar a
  | a :: d :: rest, c =>
    if isDashItem d then
      match rest with
      | b :: rest' => (itemChar a ≤ c && c ≤ itemChar b) || classMatch rest' c
      | [] => (c = itemChar a) || (c = itemChar d)
    else (c = itemChar a) || classMatch (d :: rest) c

/-- Options of `escapeHTML`.  `extra` and `exclude` are already split into
characters (the source accepts a string or an array and converts either
with `Array.from`); `map` is the caller's character-to-entity override
(an object literal, so its keys are distinct). -/
structure EscapeOptions where
  extra : List Char := []
  exclude : List Char := []
  map : List (Char × String) := []
  preventDoubleEscape : Bool := true

/-- The five default entries of `baseMap`, in the source's key order. -/
def baseEntityMap : List (Char × String) :=
  [('&', "&amp;"), ('<', "&lt;"), ('>', "&gt;"), ('"', "&quot;"), ('\'', "&#39;")]

/-- First-match lookup in an association list of entities. -/
def lookupEnt : List (Char × String) → Char → Option String
  | [], _ => none
  | (k, v) :: t, c => if c = k then some v else lookupEnt t c

/-- Merge `{ ...baseMap, ...map }`: overriding entries keep the base key's position,
new keys are appended in the override's order. -/
def mergeEntityMap (base override : List (Char × String)) : List (Char × String) :=
  (base.map fun p =>
    match lookupEnt override p.1 with
    | some v => (p.1, v)
    | none => p) ++
  override.filter fun p => !(base.any fun q => q.1 = p.1)

/-- Insertion-order deduplication, as `new Set(...)` iterates. -/
def dedupChars (l : List Char) : List Char :=
  l.foldl (fun acc c => if memB c acc then acc else acc ++ [c]) []

/-- The effective escape set, in iteration order:
`new Set(Object.keys(entityMap).concat([...extraSet]))` minus `excludeSet`. -/
def escapeSetList (opts : EscapeOptions) : List Char :=
  (dedupChars ((mergeEntityMap baseEntityMap opts.map).map Prod.fst ++ opts.extra)).filter
    fun c => !(memB c opts.exclude)

/-- The items of the constructed character class, one per escape-set member. -/
def itemOf (c : Char) : ClassItem :=
  if isRegexMeta c then ClassItem.escd c else ClassItem.raw c

/-- The constructed character class of `escapeHTML`. -/
def classItems (opts : EscapeOptions) : List ClassItem :=
  (escapeSetList opts).map itemOf

/-- The single-character substitution `(ch) => entityMap[ch] ?? ch`, applied
when `ch` matches the character class and leaving `ch` alone otherwise. -/
def substChar (em : List (Char × String)) (its : List ClassItem) (c : Char) : List Char :=
  if classMatch its c then
    match lookupEnt em c with
    | some e => e.data
    | none => [c]
  else [c]

/-- Concatenated map `fun f l => (l.map f).join` over characters, used for the global
character-class replacement. -/
def concatMapChars (f : Char → List Char) : List Char → List Char
  | [] => []
  | c :: t => f c ++ concatMapChars f t

/-! ### The entity tokenizer of the `preventDoubleEscape` branch

The outer regex is `/&(#\d+|#x[0-9a-fA-F]+|[a-zA-Z][a-zA-Z0-9]+);|./g`.
`tryEntity` decides, for the text following a `&`, whether the entity
alternative matches, and if so splits off the matched body (including the
closing `;`).  The greedy quantifiers are deterministic here because `;`
belongs to none of the repeated classes. -/

def tryEntity (l : List Char) : Option (List Char × List Char) :=
  match l with
  | [] => none
  | c :: rest =>
    if c = '#' then
      if (rest.takeWhile isDig).isEmpty then
        match rest with
        | 'x' :: r2 =>
          if (r2.takeWhile isHexDig).isEmpty then none
          else
            match r2.dropWhile isHexDig with
            | ';' :: r3 => some ('#' :: 'x' :: r2.takeWhile isHexDig ++ [';'], r3)
            | _ => none
        | _ => none
      else
        match rest.dropWhile isDig with
        | ';' :: r2 => some ('#' :: rest.takeWhile isDig ++ [';'], r2)
        | _ => none
    else if isLetterAscii c then
      if (rest.takeWhile isAlnumAscii).isEmpty then none
      else
        match rest.dropWhile isAlnumAscii with
        | ';' :: r2 => some (c :: rest.takeWhile isAlnumAscii ++ [';'], r2)
        | _ => none
    else none

/-- The left-to-right scan of the `preventDoubleEscape:true` branch, with an
explicit fuel argument (one unit per token start) to keep the recursion
structural.  A recognized entity is copied through verbatim; a line
terminator is not matched by `.` and is copied unchanged by `replace`;
every other character goes through the single-character substitution. -/
def escScanF (em : List (Char × String)) (its : List ClassItem) : Nat → List Char → List Char
  | _, [] => []
  | 0, l => l
  | fuel + 1, c :: rest =>
    if c = '&' then
      match tryEntity rest with
      | some (ent, r) => '&' :: (ent ++ escScanF em its fuel r)
      | none => substChar em its '&' ++ escScanF em its fuel rest
    else if isLineTerm c then c :: escScanF em its fuel rest
    else substChar em its c ++ escScanF em its fuel rest

/-- The entity-aware scan; the input's length is always enough fuel. -/
def escScan (em : List (Char × String)) (its : List ClassItem) (l : List Char) : List Char :=
  escScanF em its l.length l

/-- The source's `escapeHTML(input, options)`: non-strings map to `""`,
an empty effective escape set short-circuits to the identity, and
otherwise the input is rewritten by the branch selected by
`preventDoubleEscape`. -/
def escapeHTML (input : Option String) (opts : EscapeOptions) : String :=
  match input with
  | none => ""
  | some s =>
    let em := mergeEntityMap baseEntityMap opts.map
    let its := classItems opts
    if (escapeSetList opts).isEmpty then s
    else if opts.preventDoubleEscape then String.mk (escScan em its s.data)
    else String.mk (concatMapChars (substChar em its) s.data)

/-- The factory `createEscaper(options)`: the escaper bound to a configuration. -/
def createEscaper (opts : EscapeOptions) : Option String → String :=
  fun input => escapeHTML input opts

/-! ### truncate -/

/-- Options of `truncate`. -/
structure TruncateOptions where
  wordSafe : Bool := false
  ellipsis : String := "..."

/-- JavaScript whitespace as trimmed by `trimEnd` (the characters relevant
to this source; only the plain space occurs in the properties below). -/
def isJsSpace (c : Char) : Bool :=
  c = ' ' || c = '\t' || c = '\n' || c = '\r' || c = '\x0b' || c = '\x0c' ||
  c = '\u00a0' || c = '\u2028' || c = '\u2029' || c = '\ufeff'

/-- JavaScript `trimEnd`: drop trailing whitespace. -/
def trimEndList (l : List Char) : List Char :=
  (l.reverse.dropWhile isJsSpace).reverse

/-- JavaScript `lastIndexOf(" ")`: the greatest index holding a space, `-1` if none. -/
def lastSpaceIdx (l : List Char) : Int :=
  go l 0 (-1)
where
  go : List Char → Int → Int → Int
    | [], _, best => best
    | c :: t, pos, best => go t (pos + 1) (if c = ' ' then pos else best)

/-- The source's `truncate(text, length, options)`. -/
def truncate (text : Option String) (len : Int) (opts : TruncateOptions) : String :=
  match text with
  | none => ""
  | some s =>
    if len ≤ 0 then ""
    else if (s.length : Int) ≤ len then s
    else
      let t := s.data.take len.toNat
      let t :=
        if opts.wordSafe then
          let ls := lastSpaceIdx t
          if ls > 0 then t.take ls.toNat else t
        else t
      String.mk (trimEndList t ++ opts.ellipsis.data)

/-! ### validateUsername

Caller-supplied regexes are modelled as opaque whole-string tests; the
caller's `normalize` transform and `custom` validators are JavaScript
functions and may throw, which the model makes explicit: `normalize` runs
in `Except Unit` (the source calls it outside any try/catch), while a
`custom` validator's outcome is one of returning a string, returning a
non-string, or throwing (the source wraps the call in try/catch).
`noConsecutive` holds the forbidden characters in array form, as in the
source's own tests. -/

/-- Outcome of calling one `custom` validator. -/
inductive CustomRes where
  | retStr (s : String)
  | retOther
  | thrown

/-- The `UsernameRules` object, with the source's defaults. -/
structure UsernameRules where
  min : Nat := 1
  max : Nat := 64
  allowed : Option (String → Bool) := none
  startsWith : Option (String → Bool) := none
  endsWith : Option (String → Bool) := none
  disallow : List (String × (String → Bool)) := []
  blacklist : Option (List String) := none
  whitelist : Option (List String) := none
  noConsecutive : List Char := []
  normalize : Option (String → Except Unit String) := none
  custom : List (String → CustomRes) := []

/-- The `UsernameResult` object. -/
structure UsernameResult where
  ok : Bool
  reasons : List String
  value : String
deriving DecidableEq

/-- The source's `hasExact(listOrSet, value)`: membership when a collection was supplied,
`false` otherwise. -/
def hasExact (l : Option (List String)) (v : String) : Bool :=
  match l with
  | some xs => memStr v xs
  | none => false

/-- Whether `value` matches `new RegExp(escapeRegExp(ch) + "{2,}")`:
the character occurs at two adjacent positions. -/
def containsDouble (ch : Char) : List Char → Bool
  | a :: b :: t => (a = ch && b = ch) || containsDouble ch (b :: t)
  | _ => false

/-- An optional pattern test contributing `reason` when it fails. -/
def testOpt (t : Option (String → Bool)) (v : String) (reason : String) : List String :=
  match t with
  | some f => if f v then [] else [reason]
  | none => []

/-- The reasons contributed by the `disallow` loop, in rule order. -/
def disallowReasons (ds : List (String × (String → Bool))) (v : String) : List String :=
  match ds with
  | [] => []
  | (src, test) :: t =>
    (if test v then ["disallowed_pattern:" ++ src] else []) ++ disallowReasons t v

/-- The body of the `noConsecutive` loop, in rule order. -/
def consecutiveReasonsAux (v : String) : List Char → List String
  | [] => []
  | ch :: t =>
    (if containsDouble ch v.data then ["consecutive:" ++ ch.toString] else []) ++
    consecutiveReasonsAux v t

/-- The `noConsecutive` check, guarded by `noConsecutive && noConsecutive.length > 0`. -/
def consecutiveReasons (cs : List Char) (v : String) : List String :=
  if cs.length > 0 then consecutiveReasonsAux v cs else []

/-- The reasons contributed by the `custom` loop: a returned non-empty
string is kept, a thrown error becomes `custom_validator_error`. -/
def customReasons (fs : List (String → CustomRes)) (v : String) : List String :=
  match fs with
  | [] => []
  | f :: t =>
    (match f v with
     | .retStr s => if s ≠ "" then [s] else []
     | .retOther => []
     | .thrown => ["custom_validator_error"]) ++ customReasons t v

/-- Evaluate `normalize ? normalize(username) : username`, in the error channel. -/
def normApply (r : UsernameRules) (u : String) : Except Unit String :=
  match r.normalize with
  | some f => f u
  | none => Except.ok u

/-- The reasons pushed by the collect-all path, in the source's order:
length bounds, allowed characters, start/end, disallow patterns,
consecutive characters, blacklist, custom validators. -/
def collectReasons (rules : UsernameRules) (value : String) : List String :=
  (if value.length < rules.min then ["too_short"] else []) ++
  (if value.length > rules.max then ["too_long"] else []) ++
  testOpt rules.allowed value "invalid_chars" ++
  testOpt rules.startsWith value "bad_start" ++
  testOpt rules.endsWith value "bad_end" ++
  disallowReasons rules.disallow value ++
  consecutiveReasons rules.noConsecutive value ++
  (if hasExact rules.blacklist value then ["blacklisted"] else []) ++
  customReasons rules.custom value

/-- The source's `validateUsername(username, rules)`.  The result is in
`Except Unit` because the unprotected `normalize(username)` call on line 65
propagates whatever its callback throws. -/
def validateUsername (username : Option String) (rules : UsernameRules) :
    Except Unit UsernameResult :=
  match username with
  | none => Except.ok ⟨false, ["not_a_string"], ""⟩
  | some u =>
    match normApply rules u with
    | Except.error e => Except.error e
    | Except.ok value =>
      if hasExact rules.whitelist value then Except.ok ⟨true, [], value⟩
      else
        Except.ok ⟨(collectReasons rules value).length == 0,
          collectReasons rules value, value⟩

/-- The factory `createUsernameValidator(rules)`: the validator bound to a rule set. -/
def createUsernameValidator (rules : UsernameRules) :
    Option String → Except Unit UsernameResult :=
  fun name => validateUsername name rules

/-! ### passwordStrength -/

/-- The rules object of `passwordStrength`, with the source's defaults. -/
structure StrengthRules where
  minLength : Nat := 8
  maxLength : Nat := 128
  requireLowercase : Bool := true
  requireUppercase : Bool := true
  requireNumber : Bool := true
  requireSymbol : Bool := true

/-- The result object of `passwordStrength`. -/
structure StrengthResult where
  score : Nat
  label : String
  reasons : List String
deriving DecidableEq

/-- The test `/[a-z]/.test(password)`. -/
def hasLowerS (s : String) : Bool := s.data.any fun c => 'a' ≤ c && c ≤ 'z'

/-- The test `/[A-Z]/.test(password)`. -/
def hasUpperS (s : String) : Bool := s.data.any fun c => 'A' ≤ c && c ≤ 'Z'

/-- The test `/\d/.test(password)`. -/
def hasNumberS (s : String) : Bool := s.data.any isDig

/-- The test `/[^A-Za-z0-9]/.test(password)`. -/
def hasSymbolS (s : String) : Bool := s.data.any fun c => !isAlnumAscii c

/-- Lookup `labels[score]` for the capped score 0..4. -/
def labelsAt : Nat → String
  | 0 => "weak"
  | 1 => "fair"
  | 2 => "good"
  | 3 => "strong"
  | _ => "very_strong"

/-- The character-class-plus-length score of a password before capping:
one point per present class, one bonus at 12 and another at 16 characters. -/
def rawScore (p : String) : Nat :=
  (if hasLowerS p then 1 else 0) + (if hasUpperS p then 1 else 0) +
  (if hasNumberS p then 1 else 0) + (if hasSymbolS p then 1 else 0) +
  (if p.length ≥ 12 then 1 else 0) + (if p.length ≥ 16 then 1 else 0)

/-- The source's `passwordStrength(password, rules)`. -/
def passwordStrength (password : Option String) (rules : StrengthRules) : StrengthResult :=
  match password with
  | none => ⟨0, "invalid", ["not_a_string"]⟩
  | some p =>
    let reasons :=
      (if p.length < rules.minLength then ["too_short"] else []) ++
      (if p.length > rules.maxLength then ["too_long"] else []) ++
      (if rules.requireLowercase && !hasLowerS p then ["missing_lowercase"] else []) ++
      (if rules.requireUppercase && !hasUpperS p then ["missing_uppercase"] else []) ++
      (if rules.requireNumber && !hasNumberS p then ["missing_number"] else []) ++
      (if rules.requireSymbol && !hasSymbolS p then ["missing_symbol"] else [])
    let score := Nat.min (rawScore p) 4
    let label0 := labelsAt score
    let label1 := if p.length < rules.minLength then "weak" else label0
    let label := if p.length > rules.maxLength then "weak" else label1
    ⟨score, label, reasons⟩

/-! ### MemoryAdapter

The store is an association map from keys to stored JavaScript values.
For `incr` only two value shapes matter: a wrapped `{ v, e }` record (the
DataStore format, as in the adapter's own doc examples) and a plain
number; `curr?.v` is `undefined` on the latter, so `?? 0` applies.
`Date.now()` is passed in as `now`. -/

/-- A value held by the in-memory datastore. -/
inductive DsVal where
  | num (n : Int)
  | wrap (v : Int) (e : Option Int)
deriving DecidableEq

/-- The backing `Map`, as an association list (insertion order, last set wins). -/
def Store := List (String × DsVal)

/-- JavaScript `Map.prototype.get`. -/
def storeGet : List (String × DsVal) → String → Option DsVal
  | [], _ => none
  | (k', v') :: t, k => if k = k' then some v' else storeGet t k

/-- The source's `MemoryAdapter.set`: `this._m.set(key, value)` stores the value verbatim. -/
def storeSet : List (String × DsVal) → String → DsVal → List (String × DsVal)
  | [], k, v => [(k, v)]
  | (k', v') :: t, k, v => if k = k' then (k, v) :: t else (k', v') :: storeSet t k v

/-- The source's `MemoryAdapter.incr(key, delta)`: reads `curr?.v ?? 0`, adds `delta`,
re-wraps preserving a live TTL, stores and returns the new value. -/
def incr (m : List (String × DsVal)) (k : String) (delta now : Int) :
    Int × List (String × DsVal) :=
  let curr := storeGet m k
  let currVal : Int :=
    match curr with
    | some (.wrap v _) => v
    | _ => 0
  let next := currVal + delta
  let ttl : Option Int :=
    match curr with
    | some (.wrap _ (some e)) => some (e - now)
    | _ => none
  let wrapped : DsVal :=
    .wrap next (match ttl with | some t => some (now + t) | none => none)
  (next, storeSet m k wrapped)

/-! ### Entity-shaped token bodies

`WfEnt body` says `'&' :: body` is a token of the entity alternative
`&(#\d+|#x[0-9a-fA-F]+|[a-zA-Z][a-zA-Z0-9]+);` of the source's scan regex:
`#` plus one-or-more digits, or `#x` (lowercase `x`) plus one-or-more hex
digits, or a letter plus one-or-more alphanumerics, closed by `;`. -/

inductive WfEnt : List Char → Prop where
  | dec (ds : List Char) (h1 : ds ≠ []) (h2 : ∀ c ∈ ds, isDig c = true) :
      WfEnt ('#' :: ds ++ [';'])
  | hex (hs : List Char) (h1 : hs ≠ []) (h2 : ∀ c ∈ hs, isHexDig c = true) :
      WfEnt ('#' :: 'x' :: hs ++ [';'])
  | named (c : Char) (as : List Char) (h0 : isLetterAscii c = true)
      (h1 : as ≠ []) (h2 : ∀ a ∈ as, isAlnumAscii a = true) :
      WfEnt (c :: as ++ [';'])

/-- Predicate: `pat` occurs contiguously somewhere in `l`. -/
def occursIn (pat l : List Char) : Prop := ∃ a b, l = a ++ pat ++ b

/-- Boolean test: `l` starts with `pat`. -/
def begWith : List Char → List Char → Bool
  | [], _ => true
  | _ :: _, [] => false
  | p :: ps, c :: cs => p = c && begWith ps cs

/-- Boolean test for a contiguous occurrence of `pat` in `l`. -/
def containsSeg (pat : List Char) : List Char → Bool
  | [] => begWith pat []
  | l@(_ :: t) => begWith pat l || containsSeg pat t

/-! ### Helper lemmas -/

theorem listStrongInd {α : Type} {P : List α → Prop}
    (h : ∀ l, (∀ m, m.length < l.length → P m) → P l) : ∀ l, P l := by
  have key : ∀ (n : Nat) (l : List α), l.length ≤ n → P l := by
    intro n
    induction n with
    | zero =>
      intro l hl
      apply h
      intro m hm
      exact absurd (Nat.lt_of_lt_of_le hm hl) (Nat.not_lt_zero _)
    | succ k ih =>
      intro l hl
      apply h
      intro m hm
      exact ih m (by omega)
  intro l
  exact key l.length l le_rfl

theorem isEmpty_false_of_ne_nil {α : Type} {l : List α} (h : l ≠ []) :
    l.isEmpty = false := by
  cases l with
  | nil => exact absurd rfl h
  | cons a t => rfl

theorem ne_nil_of_isEmpty_false {α : Type} {l : List α} (h : l.isEmpty = false) :
    l ≠ [] := by
  cases l with
  | nil => cases h
  | cons a t => simp

theorem span_semi {p : Char → Bool} (hp : p ';' = false) :
    ∀ (l₁ t : List Char), (∀ c ∈ l₁, p c = true) →
      (l₁ ++ ';' :: t).takeWhile p = l₁ ∧ (l₁ ++ ';' :: t).dropWhile p = ';' :: t := by
  intro l₁
  induction l₁ with
  | nil =>
    intro t _
    simp [List.takeWhile_cons, List.dropWhile_cons, hp]
  | cons c l ih =>
    intro t h
    have hc : p c = true := h c (by simp)
    obtain ⟨ih1, ih2⟩ := ih t fun x hx => h x (by simp [hx])
    simp [List.takeWhile_cons, List.dropWhile_cons, hc, ih1, ih2]

theorem tryEntity_complete {e : List Char} (he : WfEnt e) (t : List Char) :
    tryEntity (e ++ t) = some (e, t) := by
  cases he with
  | dec ds h1 h2 =>
    obtain ⟨hsp1, hsp2⟩ := span_semi (p := isDig) (by decide) ds t h2
    have hlist : ('#' :: ds ++ [';']) ++ t = '#' :: (ds ++ ';' :: t) := by simp
    rw [hlist]
    simp [tryEntity, hsp1, hsp2, isEmpty_false_of_ne_nil h1]
  | hex hs h1 h2 =>
    obtain ⟨hsp1, hsp2⟩ := span_semi (p := isHexDig) (by decide) hs t h2
    have hlist : ('#' :: 'x' :: hs ++ [';']) ++ t = '#' :: 'x' :: (hs ++ ';' :: t) := by
      simp
    have hx : isDig 'x' = false := by decide
    rw [hlist]
    simp [tryEntity, List.takeWhile_cons, hx, hsp1, hsp2, isEmpty_false_of_ne_nil h1]
  | named c as h0 h1 h2 =>
    obtain ⟨hsp1, hsp2⟩ := span_semi (p := isAlnumAscii) (by decide) as t h2
    have hc : ¬(c = '#') := by
      intro h
      rw [h] at h0
      exact absurd h0 (by decide)
    have hlist : (c :: as ++ [';']) ++ t = c :: (as ++ ';' :: t) := by simp
    rw [hlist]
    simp [tryEntity, hc, h0, hsp1, hsp2, isEmpty_false_of_ne_nil h1]

theorem tryEntity_sound : ∀ {l e r : List Char},
    tryEntity l = some (e, r) → WfEnt e ∧ l = e ++ r := by
  intro l e r h
  cases l with
  | nil => simp [tryEntity] at h
  | cons c rest =>
    simp only [tryEntity] at h
    by_cases hh : c = '#'
    · rw [if_pos hh] at h
      subst hh
      by_cases hds : (rest.takeWhile isDig).isEmpty
      · rw [if_pos hds] at h
        split at h
        · rename_i r2
          by_cases hhex : (r2.takeWhile isHexDig).isEmpty
          · rw [if_pos hhex] at h
            cases h
          · rw [if_neg hhex] at h
            split at h
            · rename_i r3 heq2
              cases h
              refine ⟨WfEnt.hex _ (ne_nil_of_isEmpty_false (by simpa using hhex))
                (fun x hx => List.mem_takeWhile_imp hx), ?_⟩
              have hres : List.takeWhile isHexDig r2 ++ ';' :: r = r2 := by
                rw [← heq2]
                exact List.takeWhile_append_dropWhile isHexDig r2
              conv_lhs => rw [← hres]
              simp
            · cases h
        · cases h
      · rw [if_neg hds] at h
        split at h
        · rename_i r2 heq2
          cases h
          refine ⟨WfEnt.dec _ (ne_nil_of_isEmpty_false (by simpa using hds))
            (fun x hx => List.mem_takeWhile_imp hx), ?_⟩
          have hres : List.takeWhile isDig rest ++ ';' :: r = rest := by
            rw [← heq2]
            exact List.takeWhile_append_dropWhile isDig rest
          conv_lhs => rw [← hres]
          simp
        · cases h
    · rw [if_neg hh] at h
      by_cases hl : isLetterAscii c
      · rw [if_pos hl] at h
        by_cases has : (rest.takeWhile isAlnumAscii).isEmpty
        · rw [if_pos has] at h
          cases h
        · rw [if_neg has] at h
          split at h
          · rename_i r2 heq2
            cases h
            refine ⟨WfEnt.named _ _ hl (ne_nil_of_isEmpty_false (by simpa using has))
              (fun x hx => List.mem_takeWhile_imp hx), ?_⟩
            have hres : List.takeWhile isAlnumAscii rest ++ ';' :: r = rest := by
              rw [← heq2]
              exact List.takeWhile_append_dropWhile isAlnumAscii rest
            conv_lhs => rw [← hres]
            simp
          · cases h
      · rw [if_neg hl] at h
        cases h

theorem wfEnt_no_amp {e : List Char} (he : WfEnt e) : '&' ∉ e := by
  intro hm
  cases he with
  | dec ds h1 h2 =>
    simp only [List.cons_append, List.mem_cons, List.mem_append,
      List.mem_singleton] at hm
    rcases hm with h | h | h
    · exact absurd h (by decide)
    · exact absurd (h2 _ h) (by decide)
    · exact absurd h (by decide)
  | hex hs h1 h2 =>
    simp only [List.cons_append, List.mem_cons, List.mem_append,
      List.mem_singleton] at hm
    rcases hm with h | h | h | h
    · exact absurd h (by decide)
    · exact absurd h (by decide)
    · exact absurd (h2 _ h) (by decide)
    · exact absurd h (by decide)
  | named c as h0 h1 h2 =>
    simp only [List.cons_append, List.mem_cons, List.mem_append,
      List.mem_singleton] at hm
    rcases hm with h | h | h
    · rw [← h] at h0
      exact absurd h0 (by decide)
    · exact absurd (h2 _ h) (by decide)
    · exact absurd h (by decide)

theorem wfEnt_positions {e : List Char} (he : WfEnt e) : 1 ≤ e.length := by
  cases he <;> simp

theorem escScanF_congr (em : List (Char × String)) (its : List ClassItem) :
    ∀ (l : List Char) (f g : Nat), l.length ≤ f → l.length ≤ g →
      escScanF em its f l = escScanF em its g l := by
  apply listStrongInd
    (P := fun l => ∀ f g : Nat, l.length ≤ f → l.length ≤ g →
      escScanF em its f l = escScanF em its g l)
  intro l ih f g hf hg
  cases l with
  | nil => cases f <;> cases g <;> rfl
  | cons c rest =>
    cases f with
    | zero => simp at hf
    | succ f' =>
      cases g with
      | zero => simp at hg
      | succ g' =>
        simp only [List.length_cons] at hf hg
        by_cases hc : c = '&'
        · subst hc
          cases htE : tryEntity rest with
          | none =>
            simp only [escScanF, eq_self_iff_true, if_true, htE]
            rw [ih rest (by simp) f' g' (by omega) (by omega)]
          | some pr =>
            obtain ⟨ent, r⟩ := pr
            have hsplit := (tryEntity_sound htE).2
            have hr : r.length ≤ rest.length := by
              rw [hsplit]
              simp
            simp only [escScanF, eq_self_iff_true, if_true, htE]
            rw [ih r (by simp; omega) f' g' (by omega) (by omega)]
        · simp only [escScanF, if_neg hc]
          by_cases hlt : isLineTerm c = true
          · rw [if_pos hlt, if_pos hlt]
            rw [ih rest (by simp) f' g' (by omega) (by omega)]
          · rw [if_neg hlt, if_neg hlt]
            rw [ih rest (by simp) f' g' (by omega) (by omega)]

theorem escScan_nil (em : List (Char × String)) (its : List ClassItem) :
    escScan em its [] = [] := rfl

theorem escScan_amp (em : List (Char × String)) (its : List ClassItem)
    {rest ent r : List Char} (h : tryEntity rest = some (ent, r)) :
    escScan em its ('&' :: rest) = '&' :: (ent ++ escScan em its r) := by
  have hsplit := (tryEntity_sound h).2
  have hr : r.length ≤ rest.length := by
    rw [hsplit]
    simp
  show escScanF em its ('&' :: rest).length ('&' :: rest) = _
  simp only [List.length_cons, escScanF, if_pos rfl, h]
  rw [escScanF_congr em its r rest.length r.length hr le_rfl]
  rfl

theorem escScan_amp_none (em : List (Char × String)) (its : List ClassItem)
    {rest : List Char} (h : tryEntity rest = none) :
    escScan em its ('&' :: rest) = substChar em its '&' ++ escScan em its rest := by
  show escScanF em its ('&' :: rest).length ('&' :: rest) = _
  simp only [List.length_cons, escScanF, if_pos rfl, h]
  rfl

theorem escScan_term (em : List (Char × String)) (its : List ClassItem)
    {c : Char} {rest : List Char} (h1 : ¬c = '&') (h2 : isLineTerm c = true) :
    escScan em its (c :: rest) = c :: escScan em its rest := by
  show escScanF em its (c :: rest).length (c :: rest) = _
  simp only [List.length_cons, escScanF, if_neg h1, if_pos h2]
  rfl

theorem escScan_chr (em : List (Char × String)) (its : List ClassItem)
    {c : Char} {rest : List Char} (h1 : ¬c = '&') (h2 : isLineTerm c = false) :
    escScan em its (c :: rest) = substChar em its c ++ escScan em its rest := by
  show escScanF em its (c :: rest).length (c :: rest) = _
  simp only [List.length_cons, escScanF, if_neg h1, h2]
  rfl

/-! ### The default configuration and idempotence of the scan -/

/-- The merged entity map of the default configuration. -/
def emD : List (Char × String) := mergeEntityMap baseEntityMap []

/-- The character class of the default configuration: `[&<>"']`. -/
def itsD : List ClassItem := classItems {}

theorem escapeHTML_default (s : String) :
    escapeHTML (some s) {} = String.mk (escScan emD itsD s.data) := by
  have h1 : (escapeSetList ({} : EscapeOptions)).isEmpty = false := by decide
  simp [escapeHTML, h1, emD, itsD]

theorem classMatchD (c : Char) :
    classMatch itsD c =
      (c = '&' || (c = '<' || (c = '>' || (c = '"' || c = '\'')))) := rfl

/-- The shape of outputs of the default scan: a sequence of blocks, each a
verbatim entity token or a single character the scan leaves alone. -/
inductive EscOutD : List Char → Prop where
  | nil : EscOutD []
  | ent (e r : List Char) (he : WfEnt e) (hr : EscOutD r) : EscOutD ('&' :: (e ++ r))
  | chr (c : Char) (r : List Char) (hc : ¬c = '&')
      (hs : isLineTerm c = true ∨ substChar emD itsD c = [c]) (hr : EscOutD r) :
      EscOutD (c :: r)

theorem escOutD_fixed : ∀ {l : List Char}, EscOutD l → escScan emD itsD l = l := by
  intro l h
  induction h with
  | nil => rfl
  | ent e r he hr ih =>
    rw [show ('&' :: (e ++ r)) = '&' :: (e ++ r) from rfl,
      escScan_amp emD itsD (tryEntity_complete he r), ih]
  | chr c r hc hs hr ih =>
    by_cases ht : isLineTerm c = true
    · rw [escScan_term emD itsD hc ht, ih]
    · have hsub : substChar emD itsD c = [c] := by
        rcases hs with h | h
        · exact absurd h ht
        · exact h
      rw [escScan_chr emD itsD hc (by simpa using ht), ih, hsub]
      rfl

theorem escScan_out : ∀ l : List Char, EscOutD (escScan emD itsD l) := by
  apply listStrongInd
  intro l ih
  cases l with
  | nil => exact EscOutD.nil
  | cons c rest =>
    by_cases hc : c = '&'
    · subst hc
      cases htE : tryEntity rest with
      | some pr =>
        obtain ⟨ent, r⟩ := pr
        obtain ⟨hwf, hsplit⟩ := tryEntity_sound htE
        rw [escScan_amp emD itsD htE]
        refine EscOutD.ent ent _ hwf (ih r ?_)
        rw [hsplit]
        simp only [List.length_cons, List.length_append]
        have := wfEnt_positions hwf
        omega
      | none =>
        rw [escScan_amp_none emD itsD htE]
        have hsub : substChar emD itsD '&' = '&' :: ("amp;" : String).data := by decide
        rw [hsub]
        show EscOutD ('&' :: (("amp;" : String).data ++ escScan emD itsD rest))
        exact EscOutD.ent _ _
          (WfEnt.named 'a' ['m', 'p'] (by decide) (by decide) (by decide))
          (ih rest (by simp))
    · by_cases ht : isLineTerm c = true
      · rw [escScan_term emD itsD hc ht]
        exact EscOutD.chr c _ hc (Or.inl ht) (ih rest (by simp))
      · rw [escScan_chr emD itsD hc (by simpa using ht)]
        by_cases hcm : classMatch itsD c = true
        · have := classMatchD c
          rw [hcm] at this
          have hcases : c = '<' ∨ c = '>' ∨ c = '"' ∨ c = '\'' := by
            have h5 := this.symm
            simp only [Bool.or_eq_true, decide_eq_true_eq] at h5
            rcases h5 with h | h | h | h | h
            · exact absurd h hc
            · exact Or.inl h
            · exact Or.inr (Or.inl h)
            · exact Or.inr (Or.inr (Or.inl h))
            · exact Or.inr (Or.inr (Or.inr h))
          rcases hcases with h | h | h | h
          all_goals subst h
          · rw [show substChar emD itsD '<' = '&' :: ("lt;" : String).data from by decide]
            exact EscOutD.ent _ _
              (WfEnt.named 'l' ['t'] (by decide) (by decide) (by decide))
              (ih rest (by simp))
          · rw [show substChar emD itsD '>' = '&' :: ("gt;" : String).data from by decide]
            exact EscOutD.ent _ _
              (WfEnt.named 'g' ['t'] (by decide) (by decide) (by decide))
              (ih rest (by simp))
          · rw [show substChar emD itsD '"' = '&' :: ("quot;" : String).data from by decide]
            exact EscOutD.ent _ _
              (WfEnt.named 'q' ['u', 'o', 't'] (by decide) (by decide) (by decide))
              (ih rest (by simp))
          · rw [show substChar emD itsD '\'' = '&' :: ("#39;" : String).data from by decide]
            exact EscOutD.ent _ _
              (WfEnt.dec ['3', '9'] (by decide) (by decide))
              (ih rest (by simp))
        · have hsub : substChar emD itsD c = [c] := by
            simp [substChar, hcm]
          rw [hsub]
          exact EscOutD.chr c _ hc (Or.inr hsub) (ih rest (by simp))

/-- C1: for every string `s`, escaping twice with `preventDoubleEscape`
enabled equals escaping once, under the default configuration:
`escapeHTML(escapeHTML(s), {}) = escapeHTML(s, {})` with the default
entity map, no extra and no exclude (`preventDoubleEscape` defaults to
true). -/
theorem escapeHTML_idempotent (s : String) :
    escapeHTML (some (escapeHTML (some s) {})) {} = escapeHTML (some s) {} := by
  rw [escapeHTML_default s, escapeHTML_default (String.mk (escScan emD itsD s.data))]
  show String.mk (escScan emD itsD (escScan emD itsD s.data)) = _
  rw [escOutD_fixed (escScan_out s.data)]

theorem occursIn_append_left {pat l : List Char} (x : List Char)
    (h : occursIn pat l) : occursIn pat (x ++ l) := by
  obtain ⟨a, b, rfl⟩ := h
  exact ⟨x ++ a, b, by simp⟩

theorem occursIn_cons {pat l : List Char} (c : Char) (h : occursIn pat l) :
    occursIn pat (c :: l) :=
  occursIn_append_left [c] h

theorem begWith_self_append : ∀ (p b : List Char), begWith p (p ++ b) = true := by
  intro p
  induction p with
  | nil => intro b; rfl
  | cons c t ih => intro b; simp [begWith, ih]

theorem containsSeg_append_self (pat b : List Char) :
    ∀ a : List Char, containsSeg pat (a ++ (pat ++ b)) = true := by
  intro a
  induction a with
  | nil =>
    cases hq : pat ++ b with
    | nil =>
      have hp : pat = [] := (List.append_eq_nil.mp hq).1
      simp [hp, containsSeg, begWith]
    | cons c t =>
      have hb := begWith_self_append pat b
      rw [hq] at hb
      show (begWith pat (c :: t) || containsSeg pat t) = true
      simp [hb]
  | cons x a' ih =>
    simp [containsSeg, ih]

theorem containsSeg_of_occursIn {pat l : List Char} (h : occursIn pat l) :
    containsSeg pat l = true := by
  obtain ⟨a, b, rfl⟩ := h
  have : a ++ pat ++ b = a ++ (pat ++ b) := by simp
  rw [this]
  exact containsSeg_append_self pat b a

theorem split_at_amp (a : List Char) (ha : '&' ∉ a) :
    ∀ (u w r : List Char), u ++ '&' :: w = a ++ r →
      ∃ u₂, u = a ++ u₂ ∧ r = u₂ ++ '&' :: w := by
  induction a with
  | nil =>
    intro u w r h
    have h' : r = u ++ '&' :: w := by simpa using h.symm
    exact ⟨u, by simp, h'⟩
  | cons x a' ih =>
    intro u w r h
    have hx : x ≠ '&' := by
      intro hh
      exact ha (by rw [hh]; exact List.mem_cons_self _ _)
    cases u with
    | nil =>
      simp only [List.nil_append, List.cons_append, List.cons.injEq] at h
      exact absurd h.1.symm hx
    | cons y u' =>
      simp only [List.cons_append, List.cons.injEq] at h
      obtain ⟨h1, h2⟩ := h
      obtain ⟨u₂, hu, hr⟩ :=
        ih (fun hm => ha (List.mem_cons_of_mem _ hm)) u' w r h2
      exact ⟨u₂, by simp [h1, hu], hr⟩

theorem escScan_preserves_entity (em : List (Char × String)) (its : List ClassItem)
    (v ent : List Char) (he : WfEnt ent) :
    ∀ u : List Char, occursIn ('&' :: ent) (escScan em its (u ++ ('&' :: ent) ++ v)) := by
  apply listStrongInd
  intro u ih
  cases u with
  | nil =>
    simp only [List.nil_append]
    rw [show ('&' :: ent) ++ v = '&' :: (ent ++ v) from rfl,
      escScan_amp em its (tryEntity_complete he v)]
    exact ⟨[], escScan em its v, by simp⟩
  | cons c u' =>
    have hstep : (c :: u') ++ ('&' :: ent) ++ v = c :: (u' ++ ('&' :: ent) ++ v) := by
      simp
    rw [hstep]
    by_cases hc : c = '&'
    · subst hc
      cases htE : tryEntity (u' ++ ('&' :: ent) ++ v) with
      | none =>
        rw [escScan_amp_none em its htE]
        exact occursIn_append_left _ (ih u' (by simp))
      | some pr =>
        obtain ⟨ent', r⟩ := pr
        obtain ⟨hwf', hsplit⟩ := tryEntity_sound htE
        obtain ⟨u₂, hu2, hr2⟩ :=
          split_at_amp ent' (wfEnt_no_amp hwf') u' (ent ++ v) r
            (by rw [← hsplit]; simp)
        rw [escScan_amp em its htE]
        have hlen : u₂.length < ('&' :: u').length := by
          rw [hu2]
          simp only [List.length_cons, List.length_append]
          omega
        have hocc := ih u₂ hlen
        rw [show u₂ ++ ('&' :: ent) ++ v = u₂ ++ '&' :: (ent ++ v) from by simp,
          ← hr2] at hocc
        exact occursIn_cons '&' (occursIn_append_left ent' hocc)
    · by_cases ht : isLineTerm c = true
      · rw [escScan_term em its hc ht]
        exact occursIn_cons c (ih u' (by simp))
      · rw [escScan_chr em its hc (by simpa using ht)]
        exact occursIn_append_left _ (ih u' (by simp))

/-- C2 (counterexample): the entity alternative of the scan regex requires
a `#` before the digits and a lowercase `x`, so neither `&12;` nor
`&#X41;` is recognized as an entity: in both, the leading `&` is escaped
to `&amp;`, and `&12;` does not appear unchanged in the output. -/
theorem entity_grammar_cex :
    escapeHTML (some "&12;") {} = "&amp;12;" ∧
    escapeHTML (some "&#X41;") {} = "&amp;#X41;" ∧
    ¬occursIn ("&12;" : String).data (escapeHTML (some "&12;") {}).data := by
  refine ⟨by decide, by decide, fun h => absurd (containsSeg_of_occursIn h) (by decide)⟩

/-- C2 (amended): when `preventDoubleEscape` is true, `escapeHTML` scans
the input left to right and copies through verbatim (never re-escapes)
every substring consisting of `&` followed by either `#` plus one-or-more
digits, or `#x` (lowercase `x`) plus hex digits, or a letter followed by
one-or-more alphanumerics, terminated by `;`; every other single character
(except a line terminator) is escaped individually via the character-class
substitution.  In particular, for every input containing such an
entity-shaped substring, that substring appears unchanged in the output. -/
theorem entity_substrings_verbatim (opts : EscapeOptions) (u v ent : List Char)
    (hp : opts.preventDoubleEscape = true) (he : WfEnt ent) :
    occursIn ('&' :: ent)
      (escapeHTML (some (String.mk (u ++ ('&' :: ent) ++ v))) opts).data := by
  by_cases hE : (escapeSetList opts).isEmpty
  · have hid : escapeHTML (some (String.mk (u ++ ('&' :: ent) ++ v))) opts =
        String.mk (u ++ ('&' :: ent) ++ v) := by
      simp [escapeHTML, hE]
    rw [hid]
    exact ⟨u, v, rfl⟩
  · have hscan : escapeHTML (some (String.mk (u ++ ('&' :: ent) ++ v))) opts =
        String.mk (escScan (mergeEntityMap baseEntityMap opts.map) (classItems opts)
          (u ++ ('&' :: ent) ++ v)) := by
      simp [escapeHTML, hE, hp]
    rw [hscan]
    exact escScan_preserves_entity _ _ v ent he u

/-- Witness for C2: the hex entity `&#x41;` inside surrounding text is
copied through verbatim by the default configuration. -/
theorem entity_substrings_verbatim_witness :
    occursIn ('&' :: ("#x41;" : String).data)
      (escapeHTML (some (String.mk (("a<" : String).data ++
        ('&' :: ("#x41;" : String).data) ++ ("z" : String).data))) {}).data :=
  entity_substrings_verbatim {} ("a<" : String).data ("z" : String).data
    ("#x41;" : String).data rfl
    (WfEnt.hex ['4', '1'] (by decide) (by decide))

theorem itemChar_itemOf (c : Char) : itemChar (itemOf c) = c := by
  unfold itemOf
  split <;> rfl

theorem isDashItem_itemOf {c : Char} (h : c ≠ '-') : isDashItem (itemOf c) = false := by
  unfold itemOf
  split
  · rfl
  · simp [isDashItem, h]

theorem eq_nil_of_isEmpty {α : Type} {l : List α} (h : l.isEmpty = true) : l = [] := by
  cases l with
  | nil => rfl
  | cons a t => cases h

theorem classMatch_no_dash :
    ∀ cs : List Char, memB '-' cs = false →
      ∀ c, classMatch (cs.map itemOf) c = memB c cs := by
  apply listStrongInd
    (P := fun cs => memB '-' cs = false →
      ∀ c, classMatch (cs.map itemOf) c = memB c cs)
  intro cs ih hd c
  cases cs with
  | nil => rfl
  | cons x t =>
    cases t with
    | nil =>
      show (decide (c = itemChar (itemOf x))) = (decide (c = x) || false)
      simp [itemChar_itemOf]
    | cons y t' =>
      simp only [memB, Bool.or_eq_false_iff, decide_eq_false_iff_not] at hd
      obtain ⟨hx, hy, ht⟩ := hd
      have hy' : y ≠ '-' := fun h => hy h.symm
      have harm : classMatch (itemOf x :: itemOf y :: t'.map itemOf) c =
          ((c = itemChar (itemOf x)) || classMatch (itemOf y :: t'.map itemOf) c) := by
        rw [classMatch.eq_def]
        simp only []
        rw [if_neg (by simp [isDashItem_itemOf hy'])]
      simp only [List.map_cons, harm, itemChar_itemOf]
      have hrec : classMatch ((y :: t').map itemOf) c = memB c (y :: t') :=
        ih (y :: t') (by simp)
          (by simp only [memB, Bool.or_eq_false_iff, decide_eq_false_iff_not]
              exact ⟨hy, ht⟩) c
      rw [List.map_cons] at hrec
      rw [hrec]
      rfl

theorem concatMapChars_congr {f g : Char → List Char} (h : ∀ c, f c = g c) :
    ∀ l : List Char, concatMapChars f l = concatMapChars g l := by
  intro l
  induction l with
  | nil => rfl
  | cons c t ih => simp [concatMapChars, h c, ih]

theorem concatMapChars_id : ∀ l : List Char, concatMapChars (fun c => [c]) l = l := by
  intro l
  induction l with
  | nil => rfl
  | cons c t ih => simp [concatMapChars, ih]

/-- C4 (amended): when `preventDoubleEscape` is false and the effective
escape set contains no `-` (so the constructed character class denotes
exactly the set, with no range formation), `escapeHTML` replaces exactly
the occurrences of characters in the effective escape set — (keys of the
merged entity map ∪ extra) − exclude — by their mapped entity (or the
literal character when a set member has no map entry), and leaves every
other character unchanged; and for every configuration, if the effective
escape set is empty the input is returned unchanged. -/
theorem escapeHTML_replaces_exactly :
    (∀ (opts : EscapeOptions) (s : String),
       opts.preventDoubleEscape = false →
       memB '-' (escapeSetList opts) = false →
       escapeHTML (some s) opts =
         String.mk (concatMapChars
           (fun c =>
             if memB c (escapeSetList opts) then
               match lookupEnt (mergeEntityMap baseEntityMap opts.map) c with
               | some e => e.data
               | none => [c]
             else [c]) s.data)) ∧
    (∀ (opts : EscapeOptions) (s : String),
       escapeSetList opts = [] → escapeHTML (some s) opts = s) := by
  constructor
  · intro opts s hp hdash
    by_cases hE : (escapeSetList opts).isEmpty
    · have hnil : escapeSetList opts = [] := eq_nil_of_isEmpty hE
      have hid : escapeHTML (some s) opts = s := by simp [escapeHTML, hE]
      rw [hid, concatMapChars_congr (g := fun c => [c])
        (fun c => by rw [hnil]; rfl), concatMapChars_id]
    · have hbr : escapeHTML (some s) opts =
          String.mk (concatMapChars
            (substChar (mergeEntityMap baseEntityMap opts.map) (classItems opts))
            s.data) := by
        simp [escapeHTML, hE, hp]
      rw [hbr]
      congr 1
      apply concatMapChars_congr
      intro c
      unfold substChar classItems
      rw [classMatch_no_dash _ hdash c]
  · intro opts s hnil
    have hE : (escapeSetList opts).isEmpty = true := by rw [hnil]; rfl
    simp [escapeHTML, hE]

/-- The configuration of the C4 counterexample: the class `[&<>"'a-c]`
contains the range `a-c`. -/
def rangeCfg : EscapeOptions :=
  { extra := ['a', '-', 'c'], exclude := ['b'], map := [('b', "B!")],
    preventDoubleEscape := false }

/-- C4 (counterexample): two violations of the claim as stated for every
configuration.  Under the default configuration (`preventDoubleEscape`
defaults to true) the `&` of `&amp;` is a member of the effective escape
set yet is not replaced.  And under `rangeCfg` the unescaped `-` forms the
range `a-c` in the character class, so `b` — excluded, hence not in the
effective escape set — is nevertheless replaced by its map entry `B!`. -/
theorem escapeHTML_replaces_exactly_cex :
    (memB '&' (escapeSetList {}) = true ∧ escapeHTML (some "&amp;") {} = "&amp;") ∧
    (memB 'b' (escapeSetList rangeCfg) = false ∧
      escapeHTML (some "b") rangeCfg = "B!") := by
  exact ⟨⟨by decide, by decide⟩, ⟨by decide, by decide⟩⟩

/-- A dash-free `preventDoubleEscape:false` configuration. -/
def noDashCfg : EscapeOptions := { preventDoubleEscape := false }

/-- An all-defaults-excluded configuration with empty effective escape set. -/
def excludeAllCfg : EscapeOptions := { exclude := ['&', '<', '>', '"', '\''] }

/-- Witness for C4 at concrete configurations of both conjuncts. -/
theorem escapeHTML_replaces_exactly_witness :
    escapeHTML (some "a<b") noDashCfg =
      String.mk (concatMapChars
        (fun c =>
          if memB c (escapeSetList noDashCfg) then
            match lookupEnt (mergeEntityMap baseEntityMap noDashCfg.map) c with
            | some e => e.data
            | none => [c]
          else [c]) ("a<b" : String).data) ∧
    escapeHTML (some "x&y") excludeAllCfg = "x&y" :=
  ⟨escapeHTML_replaces_exactly.1 noDashCfg "a<b" rfl (by decide),
   escapeHTML_replaces_exactly.2 excludeAllCfg "x&y" (by decide)⟩

theorem beq_zero_isEmpty (l : List String) : (l.length == 0) = l.isEmpty := by
  cases l <;> rfl

theorem storeGet_storeSet (m : List (String × DsVal)) (k : String) (v : DsVal) :
    storeGet (storeSet m k v) k = some v := by
  induction m with
  | nil => simp [storeSet, storeGet]
  | cons p t ih =>
    obtain ⟨k', v'⟩ := p
    by_cases h : k = k'
    · simp [storeSet, storeGet, h]
    · simp [storeSet, storeGet, h, ih]

theorem mem_customReasons {f : String → CustomRes} {fs : List (String → CustomRes)}
    {v : String} (hf : f ∈ fs) (ht : f v = CustomRes.thrown) :
    "custom_validator_error" ∈ customReasons fs v := by
  induction fs with
  | nil => cases hf
  | cons g t ih =>
    cases hf with
    | head => simp [customReasons, ht]
    | tail b hf =>
      simp only [customReasons, List.mem_append]
      exact Or.inr (ih hf)

/-- The collect-all path of `validateUsername`, as an equation. -/
theorem validateUsername_collect {u value : String} {rules : UsernameRules}
    (hn : normApply rules u = Except.ok value)
    (hw : hasExact rules.whitelist value = false) :
    validateUsername (some u) rules =
      Except.ok ⟨(collectReasons rules value).length == 0,
        collectReasons rules value, value⟩ := by
  simp [validateUsername, hn, hw]

theorem consecutiveReasonsAux_eq (v : String) (cs : List Char) :
    consecutiveReasonsAux v cs =
      (cs.filter fun ch => containsDouble ch v.data).map
        fun ch => "consecutive:" ++ ch.toString := by
  induction cs with
  | nil => rfl
  | cons ch t ih =>
    by_cases h : containsDouble ch v.data <;>
      simp [consecutiveReasonsAux, List.filter_cons, h, ih]

theorem consecutiveReasons_eq (cs : List Char) (v : String) :
    consecutiveReasons cs v =
      (cs.filter fun ch => containsDouble ch v.data).map
        fun ch => "consecutive:" ++ ch.toString := by
  cases cs with
  | nil => rfl
  | cons ch t => simp [consecutiveReasons, consecutiveReasonsAux_eq]

theorem sublist_extend {α : Type} {p z : List α} (h : p.Sublist z) (y : List α) :
    p.Sublist (y ++ z) :=
  h.trans (List.sublist_append_right y z)

/-! ### Claims about validateUsername -/

/-- C3: for every string value and every rule set whose whitelist contains
the (normalized) value exactly, `validateUsername` returns immediately with
`ok = true` and empty reasons, bypassing every other rule — blacklist,
length bounds, disallow patterns and custom predicates included. -/
theorem whitelist_short_circuit (u : String) (rules : UsernameRules) (value : String)
    (hn : normApply rules u = Except.ok value)
    (hw : hasExact rules.whitelist value = true) :
    validateUsername (some u) rules = Except.ok ⟨true, [], value⟩ := by
  simp [validateUsername, hn, hw]

/-- A rule set where every non-whitelist rule fails for `"adm"`, and both
the whitelist and the blacklist hold exactly `"adm"`. -/
def wlRules : UsernameRules :=
  { min := 10, max := 1, allowed := some fun _ => false,
    startsWith := some fun _ => false, endsWith := some fun _ => false,
    disallow := [("x", fun _ => true)], blacklist := some ["adm"],
    whitelist := some ["adm"], noConsecutive := ['a'],
    custom := [fun _ => CustomRes.thrown, fun _ => CustomRes.retStr "nope"] }

/-- Witness for C3 at a concrete rule set in which every other rule fails. -/
theorem whitelist_short_circuit_witness :
    validateUsername (some "adm") wlRules = Except.ok ⟨true, [], "adm"⟩ :=
  whitelist_short_circuit "adm" wlRules "adm" rfl (by decide)

/-- A rule set whose `normalize` transform throws. -/
def throwRules : UsernameRules := { normalize := some fun _ => Except.error () }

/-- C5 (counterexample): with a throwing `normalize` transform —  called on
line 65 outside any try/catch — `validateUsername` propagates the exception
instead of returning a `ValidationResult`, so it does not "never throw" for
every rule set. -/
theorem validateUsername_throws_cex :
    validateUsername (some "user") throwRules = Except.error () := rfl

/-- C5 (amended): `validateUsername` returns a `ValidationResult` for every
input and every rule set whose `normalize` transform does not throw, and a
custom predicate that throws when run contributes the generic reason
`custom_validator_error` instead of propagating the exception. -/
theorem validateUsername_total_and_custom_error :
    (∀ (u : Option String) (rules : UsernameRules),
       (∀ s, u = some s → ∃ v, normApply rules s = Except.ok v) →
       ∃ r, validateUsername u rules = Except.ok r) ∧
    (∀ (s value : String) (rules : UsernameRules) (f : String → CustomRes),
       normApply rules s = Except.ok value →
       hasExact rules.whitelist value = false →
       f ∈ rules.custom → f value = CustomRes.thrown →
       ∃ r, validateUsername (some s) rules = Except.ok r ∧
         "custom_validator_error" ∈ r.reasons) := by
  constructor
  · intro u rules h
    cases u with
    | none => exact ⟨_, rfl⟩
    | some s =>
      obtain ⟨v, hv⟩ := h s rfl
      by_cases hw : hasExact rules.whitelist v = true
      · exact ⟨⟨true, [], v⟩, by simp [validateUsername, hv, hw]⟩
      · exact ⟨_, validateUsername_collect hv (by simpa using hw)⟩
  · intro s value rules f hn hw hf ht
    refine ⟨_, validateUsername_collect hn hw, ?_⟩
    simp only [collectReasons, List.mem_append]
    exact Or.inr (mem_customReasons hf ht)

/-- A rule set with one throwing custom validator. -/
def customThrowRules : UsernameRules := { custom := [fun _ => CustomRes.thrown] }

/-- Witness for C5 at a concrete throwing custom validator. -/
theorem validateUsername_total_and_custom_error_witness :
    (∃ r, validateUsername (some "u") customThrowRules = Except.ok r) ∧
    (∃ r, validateUsername (some "u") customThrowRules = Except.ok r ∧
      "custom_validator_error" ∈ r.reasons) :=
  ⟨validateUsername_total_and_custom_error.1 (some "u") customThrowRules
     (fun s hs => ⟨s, by cases hs; rfl⟩),
   validateUsername_total_and_custom_error.2 "u" "u" customThrowRules _ rfl rfl
     (List.mem_singleton.mpr rfl) rfl⟩

/-- A rule set whose whitelist contains the value that also violates
`noConsecutive`. -/
def wlConsecRules : UsernameRules := { whitelist := some ["aa"], noConsecutive := ['a'] }

/-- C6 (counterexample): for the value `"aa"` with `noConsecutive = ['a']`
and the whitelist containing `"aa"`, the short-circuit returns with empty
reasons, so no `consecutive:a` reason is appended even though `'a'` repeats. -/
theorem consecutive_whitelist_cex :
    validateUsername (some "aa") wlConsecRules = Except.ok ⟨true, [], "aa"⟩ ∧
    containsDouble 'a' ("aa" : String).data = true ∧
    'a' ∈ wlConsecRules.noConsecutive ∧
    "consecutive:a" ∉ (UsernameResult.mk true [] "aa").reasons := by
  refine ⟨rfl, by decide, by decide, by simp⟩

/-- C6 (amended): provided the (normalized) value is not whitelisted, the
reasons of `validateUsername` contain, in rule order, exactly one reason
`consecutive:<char>` for each character of `noConsecutive` that occurs two
or more times in a row in the value. -/
theorem consecutive_reasons_in_order (u value : String) (rules : UsernameRules)
    (hn : normApply rules u = Except.ok value)
    (hw : hasExact rules.whitelist value = false) :
    ∃ r, validateUsername (some u) rules = Except.ok r ∧
      List.Sublist
        ((rules.noConsecutive.filter fun ch => containsDouble ch value.data).map
          fun ch => "consecutive:" ++ ch.toString)
        r.reasons := by
  refine ⟨_, validateUsername_collect hn hw, ?_⟩
  rw [← consecutiveReasons_eq]
  show List.Sublist _ (collectReasons rules value)
  simp only [collectReasons, List.append_assoc]
  apply sublist_extend
  apply sublist_extend
  apply sublist_extend
  apply sublist_extend
  apply sublist_extend
  apply sublist_extend
  exact List.sublist_append_left _ _

/-- A rule set forbidding consecutive `_` and `-`. -/
def consecRules : UsernameRules := { noConsecutive := ['_', '-'] }

/-- Witness for C6 at a concrete value violating one of two rules. -/
theorem consecutive_reasons_in_order_witness :
    ∃ r, validateUsername (some "a__b") consecRules = Except.ok r ∧
      List.Sublist
        ((consecRules.noConsecutive.filter
            fun ch => containsDouble ch ("a__b" : String).data).map
          fun ch => "consecutive:" ++ ch.toString)
        r.reasons :=
  consecutive_reasons_in_order "a__b" "a__b" consecRules rfl rfl

/-- C7: every `ValidationResult` produced by `validateUsername` satisfies
`ok == (reasons is empty)`, across the non-string branch, the whitelist
short-circuit and the normal collect-all path. -/
theorem result_ok_iff_no_reasons (u : Option String) (rules : UsernameRules)
    (r : UsernameResult) (h : validateUsername u rules = Except.ok r) :
    r.ok = r.reasons.isEmpty := by
  cases u with
  | none =>
    simp only [validateUsername] at h
    cases h
    rfl
  | some s =>
    simp only [validateUsername] at h
    cases hn : normApply rules s with
    | error e => rw [hn] at h; cases h
    | ok value =>
      rw [hn] at h
      simp only [] at h
      by_cases hw : hasExact rules.whitelist value = true
      · rw [if_pos hw] at h
        cases h
        rfl
      · rw [if_neg hw] at h
        cases h
        exact beq_zero_isEmpty _


/-- Witness for C7 at a concrete passing input. -/
theorem result_ok_iff_no_reasons_witness :
    (UsernameResult.mk true [] "ab").ok = (UsernameResult.mk true [] "ab").reasons.isEmpty :=
  result_ok_iff_no_reasons (some "ab") {} ⟨true, [], "ab"⟩ rfl

/-! ### Claims about the MemoryAdapter -/

/-- C8 (counterexample): after `set("counter", 10)` stores the plain number
10, `incr("counter", 5)` reads `curr?.v` — which is `undefined` on a
non-wrapped value — falls back to 0 and returns 5, not 10 + 5. -/
theorem incr_after_plain_set_cex :
    (incr (storeSet [] "counter" (DsVal.num 10)) "counter" 5 0).fst = 5 ∧
    (5 : Int) ≠ 10 + 5 := by decide

/-- C8 (amended): `incr(key, delta)` is a read-modify-write returning an
integer: if the key is absent it creates the key wrapped at `delta` and
returns `delta`; if the key holds a wrapped value `{v, e}` — the format
`set` receives from the DataStore, as in the adapter's doc examples — it
returns `v + delta`; a plain unwrapped number stored under the key is
treated as absent, returning `delta`. -/
theorem incr_spec (m : List (String × DsVal)) (k : String) (delta now : Int) :
    (storeGet m k = none →
      (incr m k delta now).fst = delta ∧
      storeGet (incr m k delta now).snd k = some (DsVal.wrap delta none)) ∧
    (∀ v e, storeGet m k = some (DsVal.wrap v e) →
      (incr m k delta now).fst = v + delta) ∧
    (∀ n, storeGet m k = some (DsVal.num n) →
      (incr m k delta now).fst = delta) := by
  refine ⟨fun h => ?_, fun v e h => ?_, fun n h => ?_⟩
  · constructor
    · simp [incr, h]
    · simp [incr, h, storeGet_storeSet]
  · cases e <;> simp [incr, h]
  · simp [incr, h]

/-- Witness for C8: an absent key is created at the delta, and a wrapped
value is incremented. -/
theorem incr_spec_witness :
    (incr [] "k" 7 0).fst = 7 ∧
    (incr [("k", DsVal.wrap 10 none)] "k" 5 0).fst = 15 :=
  ⟨((incr_spec [] "k" 7 0).1 rfl).1,
   (incr_spec [("k", DsVal.wrap 10 none)] "k" 5 0).2.1 10 none rfl⟩

/-! ### Claims about truncate -/

/-- C9 (counterexample): `truncate("Hello world, this is a test.", 10)`
does not return `"Hello wor..."`: slicing to 10 characters keeps
`"Hello worl"`, not `"Hello wor"`. -/
theorem truncate_doc_example_cex :
    truncate (some "Hello world, this is a test.") 10 {} ≠ "Hello wor..." := by decide

/-- C9 (amended): `truncate("Hello world, this is a test.", 10)` returns
`"Hello worl..."`: the text is sliced to the maximum length 10 giving
`"Hello worl"`, trailing whitespace is trimmed (here none), and the
default ellipsis `"..."` is appended. -/
theorem truncate_hello_world_ten :
    truncate (some "Hello world, this is a test.") 10 {} = "Hello worl..." := by decide

/-! ### Claims about passwordStrength -/

/-- C10: the score of `passwordStrength` is computed only from
character-class presence plus the length bonuses at 12 and 16 (capped at
4), independent of every rule — in particular it is not reduced when the
password violates the length bounds — and a password shorter than
`minLength` containing all four character classes gets score 4 together
with label `"weak"`. -/
theorem passwordStrength_score_label :
    (∀ (p : String) (rules : StrengthRules),
       (passwordStrength (some p) rules).score = Nat.min (rawScore p) 4) ∧
    (∀ (p : String) (rules : StrengthRules),
       hasLowerS p = true → hasUpperS p = true → hasNumberS p = true →
       hasSymbolS p = true → p.length < rules.minLength →
       (passwordStrength (some p) rules).score = 4 ∧
       (passwordStrength (some p) rules).label = "weak") := by
  constructor
  · intro p rules
    rfl
  · intro p rules h1 h2 h3 h4 h5
    constructor
    · show Nat.min (rawScore p) 4 = 4
      simp only [rawScore, h1, h2, h3, h4, if_true]
      by_cases h12 : p.length ≥ 12 <;> by_cases h16 : p.length ≥ 16 <;>
        simp [h12, h16]
    · show (if p.length > rules.maxLength then "weak"
        else if p.length < rules.minLength then "weak"
        else labelsAt (Nat.min (rawScore p) 4)) = "weak"
      rw [if_pos h5]
      split <;> rfl

/-- Witness for C10: `"Aa1!"` has all four classes and length 4 < 8. -/
theorem passwordStrength_score_label_witness :
    (passwordStrength (some "Aa1!") ({} : StrengthRules)).score = 4 ∧
    (passwordStrength (some "Aa1!") ({} : StrengthRules)).label = "weak" :=
  passwordStrength_score_label.2 "Aa1!" {} (by decide) (by decide) (by decide)
    (by decide) (by decide)

end BBSKit
